import Mathlib

set_option maxRecDepth 10000

/-!
Shallow embedding of the FX currency strength / backtest repository
(`app.py` and `currency_SW_check.py`) and proofs of the specification's
claims about it.  Prices and returns are modelled as rationals; the
pandas rolling windows become explicit index arithmetic; the bar-by-bar
backtest loop becomes a fold over the bar indices, carrying exactly the
mutable state of the Python loop (`balance`, `in_position`,
`entry_price`, `tp_price`, `sl_price`, `history`).
-/

namespace FXCheck

/-! ## Currencies, pair canonicalization, strength aggregation -/

/-- The fixed 8-currency set (`CURRENCIES` in `app.py`, `currencies` in
`currency_SW_check.py`). -/
inductive Currency where
  | USD | EUR | JPY | GBP | AUD | CAD | CHF | NZD
  deriving DecidableEq, Fintype

/-- ISO code of a currency, as the Python code spells it in symbols. -/
def code : Currency → String
  | .USD => "USD" | .EUR => "EUR" | .JPY => "JPY" | .GBP => "GBP"
  | .AUD => "AUD" | .CAD => "CAD" | .CHF => "CHF" | .NZD => "NZD"

/-- Index in the `PRIORITY` list `["EUR","GBP","AUD","NZD","USD","CAD","CHF","JPY"]`. -/
def priorityIdx : Currency → Nat
  | .EUR => 0 | .GBP => 1 | .AUD => 2 | .NZD => 3
  | .USD => 4 | .CAD => 5 | .CHF => 6 | .JPY => 7

/-- Embedding of `get_proper_symbol` (`app.py`): returns the canonical
`=X` symbol and the inversion flag. -/
def get_proper_symbol (c1 c2 : Currency) : String × Bool :=
  if priorityIdx c1 < priorityIdx c2 then (code c1 ++ code c2 ++ "=X", false)
  else (code c2 ++ code c1 ++ "=X", true)

/-- One observed return: base currency, quote currency, fractional change. -/
def Obs : Type := Currency × Currency × ℚ

/-- Embedding of the update the strength loop performs on the `strengths`
dict for one observed return: `strengths[base] += change;
strengths[quote] -= change`, skipping the degenerate `base == quote`
case exactly as `currency_SW_check.py` does (`if base == quote: continue`). -/
def strengthUpd (f : Currency → ℚ) (o : Obs) : Currency → ℚ :=
  if o.1 = o.2.1 then f
  else fun x =>
    if x = o.1 then f x + o.2.2
    else if x = o.2.1 then f x - o.2.2
    else f x

/-- Embedding of `get_currency_strength` (`currency_SW_check.py`) /
the aggregation loop of `get_strength_data` (`app.py`): all scores start
at `0.0` and every observed return is added to the base currency and
subtracted from the quote currency. -/
def get_currency_strength (obs : List Obs) : Currency → ℚ :=
  obs.foldl strengthUpd (fun _ => 0)

/-! ## Price bars and indicators -/

/-- One OHLC price bar (a row of the downloaded DataFrame). -/
structure Bar where
  op : ℚ
  high : ℚ
  low : ℚ
  close : ℚ
  deriving DecidableEq, Inhabited

/-- One row of the indicator-augmented DataFrame after `dropna()`:
close/high/low plus `MA_S` (window 10), `MA_M` (25), `MA_L` (50) and
`ATR` (14), all present. -/
structure Row where
  close : ℚ
  high : ℚ
  low : ℚ
  ma_s : ℚ
  ma_m : ℚ
  ma_l : ℚ
  atr : ℚ
  deriving DecidableEq, Inhabited

/-- Embedding of `df["Close"].rolling(window=N).mean()` at index `i`:
the simple mean of the trailing `N` closes when the window is complete,
missing (`none`, pandas `NaN`) otherwise. -/
def maOpt (bars : List Bar) (N i : Nat) : Option ℚ :=
  if N ≤ i + 1 ∧ i < bars.length then
    some ((((List.range N).map fun k => (bars.getD (i + 1 - N + k) default).close).sum) / (N : ℚ))
  else none

/-- The rolling-mean column itself: one entry per input bar. -/
def maList (bars : List Bar) (N : Nat) : List (Option ℚ) :=
  (List.range bars.length).map (maOpt bars N)

/-- Embedding of the true-range row of `calculate_atr` (`app.py`): the
row-wise `np.max` over `High-Low`, `|High-Close.shift()|`,
`|Low-Close.shift()|` skips the missing shifted-close entries, so at
index 0 the true range degenerates to `High-Low`. -/
def trVal (bars : List Bar) (i : Nat) : ℚ :=
  let b := bars.getD i default
  if i = 0 then b.high - b.low
  else
    let p := bars.getD (i - 1) default
    max (b.high - b.low) (max |b.high - p.close| |b.low - p.close|)

/-- Embedding of `true_range.rolling(window=14).mean()` at index `i`
(the `ATR` column of `calculate_atr` with its default `period=14`). -/
def atrOpt (bars : List Bar) (i : Nat) : Option ℚ :=
  if 14 ≤ i + 1 ∧ i < bars.length then
    some ((((List.range 14).map fun k => trVal bars (i + 1 - 14 + k)).sum) / 14)
  else none

/-- The ATR column itself: one entry per input bar. -/
def atrList (bars : List Bar) : List (Option ℚ) :=
  (List.range bars.length).map (atrOpt bars)

/-- Row `i` of the augmented DataFrame, `none` when `dropna()` removes
it (some indicator column is missing there). -/
def rowAt (bars : List Bar) (i : Nat) : Option Row :=
  match maOpt bars 10 i, maOpt bars 25 i, maOpt bars 50 i, atrOpt bars i with
  | some s, some m, some l, some a =>
      let b := bars.getD i default
      some ⟨b.close, b.high, b.low, s, m, l, a⟩
  | _, _, _, _ => none

/-- Embedding of the indicator computation plus `df = df.dropna()` in
`run_advanced_backtest`: the rows that survive, in order. -/
def augment (bars : List Bar) : List Row :=
  (List.range bars.length).filterMap (rowAt bars)

/-! ## The backtest state machine -/

/-- The mutable state of the `run_advanced_backtest` loop. -/
structure BTState where
  balance : ℚ
  in_position : Bool
  entry_price : ℚ
  tp_price : ℚ
  sl_price : ℚ
  history : List ℚ
  deriving DecidableEq

/-- State before the loop: `history = []`, `balance = 0`,
`in_position = False`, `entry_price = 0`, `tp_price, sl_price = 0, 0`. -/
def initState : BTState := ⟨0, false, 0, 0, 0, []⟩

/-- Embedding of `is_perfect`: `MA_S > MA_M > MA_L` on a row. -/
def isPerfect (r : Row) : Bool :=
  decide (r.ma_m < r.ma_s) && decide (r.ma_l < r.ma_m)

/-- One iteration of the `for i in range(1, len(df))` loop body, with
`prev = df.iloc[i-1]` and `curr = df.iloc[i]`. -/
def step (rr : ℚ) (s : BTState) (prev curr : Row) : BTState :=
  if s.in_position = false then
    if isPerfect curr && ! isPerfect prev then
      { s with in_position := true
             , entry_price := curr.close
             , tp_price := curr.close + curr.atr * rr
             , sl_price := curr.close - curr.atr * 1 }
    else s
  else
    if s.tp_price ≤ curr.high then
      { s with balance := s.balance + (s.tp_price - s.entry_price)
             , history := s.history ++ [s.balance + (s.tp_price - s.entry_price)]
             , in_position := false }
    else if curr.low ≤ s.sl_price then
      { s with balance := s.balance + (s.sl_price - s.entry_price)
             , history := s.history ++ [s.balance + (s.sl_price - s.entry_price)]
             , in_position := false }
    else s

/-- The loop body at index `i` of the augmented rows. -/
def stepAt (rows : List Row) (rr : ℚ) (s : BTState) (i : Nat) : BTState :=
  step rr s (rows.getD (i - 1) default) (rows.getD i default)

/-- The whole loop `for i in range(1, len(df))` over the augmented rows. -/
def btRun (rows : List Row) (rr : ℚ) : BTState :=
  (List.range' 1 (rows.length - 1)).foldl (stepAt rows rr) initState

/-- Embedding of `run_advanced_backtest(df, risk_reward)`: the returned
`history` list. -/
def run_advanced_backtest (bars : List Bar) (rr : ℚ) : List ℚ :=
  (btRun (augment bars) rr).history

/-- The intermediate states of the loop (before each iteration and at
the end), for stating trace invariants. -/
def btStates (rows : List Row) (rr : ℚ) : List BTState :=
  (List.range' 1 (rows.length - 1)).scanl (stepAt rows rr) initState

/-! ## Instrumented run: the loop together with its open/close events -/

/-- The loop state extended with ghost event logs: the bar indices at
which a position was opened, and for each closed trade its realized
P&L delta together with `true` for a take-profit close, `false` for a
stop-loss close. -/
structure BTEvents where
  state : BTState
  opens : List Nat
  closes : List (ℚ × Bool)
  deriving DecidableEq

/-- One instrumented loop iteration: the state advances by `stepAt`,
and the event logs record the transition taken. -/
def stepEv (rows : List Row) (rr : ℚ) (t : BTEvents) (i : Nat) : BTEvents :=
  let prev := rows.getD (i - 1) default
  let curr := rows.getD i default
  let s := t.state
  { state := step rr s prev curr
  , opens :=
      if s.in_position = false ∧ (isPerfect curr && ! isPerfect prev) = true
      then t.opens ++ [i] else t.opens
  , closes :=
      if s.in_position = true then
        if s.tp_price ≤ curr.high then
          t.closes ++ [(s.tp_price - s.entry_price, true)]
        else if curr.low ≤ s.sl_price then
          t.closes ++ [(s.sl_price - s.entry_price, false)]
        else t.closes
      else t.closes }

/-- The instrumented loop over the augmented rows. -/
def btEvents (rows : List Row) (rr : ℚ) : BTEvents :=
  (List.range' 1 (rows.length - 1)).foldl (stepEv rows rr) ⟨initState, [], []⟩

/-! ## Cumulative balances (the spec's TradeLedger output) -/

/-- Modelled from the spec: the cumulative-balance sequence of a list of
per-trade realized P&L deltas, starting from `acc` (§3 TradeLedger /
§4.3 Output of `spec.md`). -/
def cumFrom (acc : ℚ) : List ℚ → List ℚ
  | [] => []
  | d :: ds => (acc + d) :: cumFrom (acc + d) ds

/-- Modelled from the spec: the cumulative-balance sequence from a zero
starting balance, one value per closed trade, in order. -/
def cumulativeBalance (ds : List ℚ) : List ℚ := cumFrom 0 ds

/-! ## Invariants of the loop, and concrete inputs used in witnesses -/

/-- Invariant tying the loop state to the ghost close log: the balance
is the sum of the realized deltas and the history their running sums. -/
def LedgerInv (t : BTEvents) : Prop :=
  t.state.balance = (t.closes.map Prod.fst).sum
  ∧ t.state.history = cumFrom 0 (t.closes.map Prod.fst)

/-- Invariant: an open position's bracket is ordered around its entry. -/
def BracketInv (s : BTState) : Prop :=
  s.in_position = true → s.sl_price ≤ s.entry_price ∧ s.entry_price ≤ s.tp_price

/-- A row without perfect order (all indicator values equal). -/
def rowFlat : Row := ⟨1, 1, 1, 1, 1, 1, 1⟩

/-- A row with perfect order: `MA_S = 3 > MA_M = 2 > MA_L = 1`. -/
def rowPerf : Row := ⟨5, 6, 4, 3, 2, 1, 1⟩

/-- A row whose high reaches the take-profit of `sOpen`. -/
def rowHit : Row := ⟨8, 9, 5, 1, 1, 1, 1⟩

/-- A state holding an open position: entry 5, take-profit 7, stop-loss 4. -/
def sOpen : BTState := ⟨0, true, 5, 7, 4, []⟩

/-- A 51-bar series: 50 flat bars then one jump, producing exactly two
indicator-complete rows and an entry on the second of them. -/
def wbars : List Bar := List.replicate 50 ⟨1, 1, 1, 1⟩ ++ [⟨2, 2, 2, 2⟩]

/-- A 14-bar series of identical bars with `high = 2`, `low = 1`. -/
def exBars : List Bar := List.replicate 14 ⟨1, 2, 1, 1⟩

/-! ## Generic fold and scan invariants -/

theorem foldl_invariant {α β : Type _} (f : β → α → β) (P : β → Prop)
    (hf : ∀ b a, P b → P (f b a)) :
    ∀ (l : List α) (b : β), P b → P (l.foldl f b) := by
  intro l
  induction l with
  | nil => exact fun b hb => hb
  | cons a l ih => exact fun b hb => ih (f b a) (hf b a hb)

theorem scanl_invariant {α β : Type _} (f : β → α → β) (P : β → Prop)
    (hf : ∀ b a, P b → P (f b a)) :
    ∀ (l : List α) (b : β), P b → ∀ x ∈ List.scanl f b l, P x := by
  intro l
  induction l with
  | nil =>
      intro b hb x hx
      rw [List.scanl_nil, List.mem_singleton] at hx
      exact hx ▸ hb
  | cons a l ih =>
      intro b hb x hx
      rw [List.scanl_cons] at hx
      rcases List.mem_append.1 hx with h | h
      · rw [List.mem_singleton] at h
        exact h ▸ hb
      · exact ih (f b a) (hf b a hb) x h

/-! ## Cumulative-balance facts -/

theorem cumFrom_append (d : ℚ) :
    ∀ (ds : List ℚ) (acc : ℚ),
      cumFrom acc (ds ++ [d]) = cumFrom acc ds ++ [acc + ds.sum + d] := by
  intro ds
  induction ds with
  | nil => intro acc; simp [cumFrom]
  | cons e ds ih =>
      intro acc
      simp only [List.cons_append, cumFrom, List.append_eq, List.sum_cons]
      rw [ih (acc + e)]
      simp [add_assoc]

theorem cumFrom_length : ∀ (ds : List ℚ) (acc : ℚ), (cumFrom acc ds).length = ds.length := by
  intro ds
  induction ds with
  | nil => intro acc; rfl
  | cons e ds ih => intro acc; simp [cumFrom, ih]

/-! ## The instrumented loop projects onto the plain loop -/

theorem stepEv_state (rows : List Row) (rr : ℚ) (t : BTEvents) (i : Nat) :
    (stepEv rows rr t i).state = stepAt rows rr t.state i := rfl

theorem foldl_stepEv_state (rows : List Row) (rr : ℚ) :
    ∀ (l : List Nat) (t : BTEvents),
      (l.foldl (stepEv rows rr) t).state = l.foldl (stepAt rows rr) t.state := by
  intro l
  induction l with
  | nil => intro t; rfl
  | cons i l ih =>
      intro t
      rw [List.foldl_cons, List.foldl_cons, ih, stepEv_state]

theorem btEvents_state (rows : List Row) (rr : ℚ) :
    (btEvents rows rr).state = btRun rows rr := by
  unfold btEvents btRun
  rw [foldl_stepEv_state]

/-! ## Where opened positions can come from -/

theorem mem_opens_stepEv {rows : List Row} {rr : ℚ} {t : BTEvents} {i x : Nat}
    (hx : x ∈ (stepEv rows rr t i).opens) : x ∈ t.opens ∨ x = i := by
  unfold stepEv at hx
  simp only at hx
  split at hx
  · rcases List.mem_append.1 hx with h | h
    · exact Or.inl h
    · exact Or.inr (List.mem_singleton.1 h)
  · exact Or.inl hx

theorem mem_opens_foldl (rows : List Row) (rr : ℚ) :
    ∀ (l : List Nat) (t : BTEvents) (x : Nat),
      x ∈ (l.foldl (stepEv rows rr) t).opens → x ∈ t.opens ∨ x ∈ l := by
  intro l
  induction l with
  | nil => intro t x hx; exact Or.inl hx
  | cons i l ih =>
      intro t x hx
      rw [List.foldl_cons] at hx
      rcases ih (stepEv rows rr t i) x hx with h | h
      · rcases mem_opens_stepEv h with h | h
        · exact Or.inl h
        · exact Or.inr (h ▸ List.mem_cons_self i l)
      · exact Or.inr (List.mem_cons_of_mem i h)

/-! ## Nonnegativity of the true range and the ATR -/

theorem bar_getD_le (bars : List Bar) (hb : ∀ b ∈ bars, b.low ≤ b.high) (i : Nat) :
    (bars.getD i default).low ≤ (bars.getD i default).high := by
  by_cases hi : i < bars.length
  · rw [List.getD_eq_getElem _ _ hi]
    exact hb _ (List.getElem_mem hi)
  · rw [List.getD_eq_default _ _ (le_of_not_lt hi)]
    exact le_of_eq rfl

theorem trVal_nonneg (bars : List Bar) (hb : ∀ b ∈ bars, b.low ≤ b.high) (i : Nat) :
    0 ≤ trVal bars i := by
  have h := sub_nonneg.2 (bar_getD_le bars hb i)
  unfold trVal
  split
  · exact h
  · exact le_trans h (le_max_left _ _)

theorem atrOpt_nonneg {bars : List Bar} (hb : ∀ b ∈ bars, b.low ≤ b.high)
    {i : Nat} {a : ℚ} (h : atrOpt bars i = some a) : 0 ≤ a := by
  unfold atrOpt at h
  split at h
  · rw [Option.some.injEq] at h
    rw [← h]
    apply div_nonneg _ (by norm_num)
    apply List.sum_nonneg
    intro x hx
    rcases List.mem_map.1 hx with ⟨k, _, rfl⟩
    exact trVal_nonneg bars hb _
  · exact absurd h (by simp)

theorem rowAt_some_atr {bars : List Bar} {i : Nat} {r : Row}
    (h : rowAt bars i = some r) : ∃ a, atrOpt bars i = some a ∧ r.atr = a := by
  unfold rowAt at h
  cases e1 : maOpt bars 10 i with
  | none => rw [e1] at h; exact absurd h (by simp)
  | some s =>
    rw [e1] at h
    cases e2 : maOpt bars 25 i with
    | none => rw [e2] at h; exact absurd h (by simp)
    | some m =>
      rw [e2] at h
      cases e3 : maOpt bars 50 i with
      | none => rw [e3] at h; exact absurd h (by simp)
      | some l =>
        rw [e3] at h
        cases e4 : atrOpt bars i with
        | none => rw [e4] at h; exact absurd h (by simp)
        | some a =>
          rw [e4] at h
          rw [Option.some.injEq] at h
          exact ⟨a, rfl, by rw [← h]⟩

theorem rowAt_eq_none {bars : List Bar} {i : Nat}
    (h : maOpt bars 50 i = none) : rowAt bars i = none := by
  unfold rowAt
  rw [h]
  cases maOpt bars 10 i <;> cases maOpt bars 25 i <;> cases atrOpt bars i <;> rfl

theorem augment_atr_nonneg {bars : List Bar}
    (hb : ∀ b ∈ bars, b.low ≤ b.high) {r : Row} (hr : r ∈ augment bars) :
    0 ≤ r.atr := by
  unfold augment at hr
  rcases List.mem_filterMap.1 hr with ⟨j, _, hj⟩
  rcases rowAt_some_atr hj with ⟨a, ha, hatr⟩
  rw [hatr]
  exact atrOpt_nonneg hb ha

theorem augment_getD_atr_nonneg (bars : List Bar)
    (hb : ∀ b ∈ bars, b.low ≤ b.high) (i : Nat) :
    0 ≤ ((augment bars).getD i default).atr := by
  by_cases hi : i < (augment bars).length
  · rw [List.getD_eq_getElem _ _ hi]
    exact augment_atr_nonneg hb (List.getElem_mem hi)
  · rw [List.getD_eq_default _ _ (le_of_not_lt hi)]
    exact le_of_eq rfl

/-! ## The augmented series is empty on short inputs -/

theorem augment_eq_nil {bars : List Bar} (h : bars.length < 50) : augment bars = [] := by
  unfold augment
  rw [List.filterMap_eq_nil_iff]
  intro i hi
  rw [List.mem_range] at hi
  apply rowAt_eq_none
  unfold maOpt
  rw [if_neg]
  intro hc
  omega

/-! ## Branch equations of the loop body -/

theorem stepAt_eq (rows : List Row) (rr : ℚ) (s : BTState) (i : Nat) :
    stepAt rows rr s i
      = step rr s (rows.getD (i - 1) default) (rows.getD i default) := rfl

theorem step_entry {rr : ℚ} {s : BTState} {prev curr : Row}
    (h : s.in_position = false) (hc : (isPerfect curr && ! isPerfect prev) = true) :
    step rr s prev curr
      = { s with in_position := true
               , entry_price := curr.close
               , tp_price := curr.close + curr.atr * rr
               , sl_price := curr.close - curr.atr * 1 } := by
  unfold step
  rw [if_pos h, if_pos hc]

theorem step_skip {rr : ℚ} {s : BTState} {prev curr : Row}
    (h : s.in_position = false) (hc : ¬ (isPerfect curr && ! isPerfect prev) = true) :
    step rr s prev curr = s := by
  unfold step
  rw [if_pos h, if_neg hc]

theorem step_tp {rr : ℚ} {s : BTState} {prev curr : Row}
    (h : s.in_position = true) (htp : s.tp_price ≤ curr.high) :
    step rr s prev curr
      = { s with balance := s.balance + (s.tp_price - s.entry_price)
               , history := s.history ++ [s.balance + (s.tp_price - s.entry_price)]
               , in_position := false } := by
  unfold step
  rw [if_neg (by simp [h]), if_pos htp]

theorem step_sl {rr : ℚ} {s : BTState} {prev curr : Row}
    (h : s.in_position = true) (htp : ¬ s.tp_price ≤ curr.high)
    (hsl : curr.low ≤ s.sl_price) :
    step rr s prev curr
      = { s with balance := s.balance + (s.sl_price - s.entry_price)
               , history := s.history ++ [s.balance + (s.sl_price - s.entry_price)]
               , in_position := false } := by
  unfold step
  rw [if_neg (by simp [h]), if_neg htp, if_pos hsl]

theorem step_hold {rr : ℚ} {s : BTState} {prev curr : Row}
    (h : s.in_position = true) (htp : ¬ s.tp_price ≤ curr.high)
    (hsl : ¬ curr.low ≤ s.sl_price) :
    step rr s prev curr = s := by
  unfold step
  rw [if_neg (by simp [h]), if_neg htp, if_neg hsl]

theorem stepEv_opens (rows : List Row) (rr : ℚ) (t : BTEvents) (i : Nat) :
    (stepEv rows rr t i).opens
      = if t.state.in_position = false
           ∧ (isPerfect (rows.getD i default)
              && ! isPerfect (rows.getD (i - 1) default)) = true
        then t.opens ++ [i] else t.opens := rfl

theorem stepEv_closes (rows : List Row) (rr : ℚ) (t : BTEvents) (i : Nat) :
    (stepEv rows rr t i).closes
      = if t.state.in_position = true then
          if t.state.tp_price ≤ (rows.getD i default).high then
            t.closes ++ [(t.state.tp_price - t.state.entry_price, true)]
          else if (rows.getD i default).low ≤ t.state.sl_price then
            t.closes ++ [(t.state.sl_price - t.state.entry_price, false)]
          else t.closes
        else t.closes := rfl

/-! ## The ledger invariant: history is the running cumulative sum of the
closed trades' deltas, and balance their plain sum -/

theorem ledgerInv_step (rows : List Row) (rr : ℚ) (t : BTEvents) (i : Nat)
    (h : LedgerInv t) : LedgerInv (stepEv rows rr t i) := by
  obtain ⟨hb, hh⟩ := h
  unfold LedgerInv
  rw [stepEv_state, stepEv_closes, stepAt_eq]
  cases hip : t.state.in_position with
  | false =>
      rw [if_neg (by simp [hip])]
      by_cases hc : (isPerfect (rows.getD i default)
          && ! isPerfect (rows.getD (i - 1) default)) = true
      · rw [step_entry hip hc]
        exact ⟨hb, hh⟩
      · rw [step_skip hip hc]
        exact ⟨hb, hh⟩
  | true =>
      rw [if_pos rfl]
      by_cases htp : t.state.tp_price ≤ (rows.getD i default).high
      · rw [if_pos htp, step_tp hip htp]
        constructor
        · simp [List.sum_append, hb]
        · simp only [List.map_append, List.map_cons, List.map_nil]
          rw [cumFrom_append, hh, hb]
          simp
      · rw [if_neg htp]
        by_cases hsl : (rows.getD i default).low ≤ t.state.sl_price
        · rw [if_pos hsl, step_sl hip htp hsl]
          constructor
          · simp [List.sum_append, hb]
          · simp only [List.map_append, List.map_cons, List.map_nil]
            rw [cumFrom_append, hh, hb]
            simp
        · rw [if_neg hsl, step_hold hip htp hsl]
          exact ⟨hb, hh⟩

/-! ## The bracket invariant: ATR-based exits straddle the entry price -/

theorem bracket_step {rows : List Row} {rr : ℚ} (hrr : 0 ≤ rr)
    (hatr : ∀ i, 0 ≤ (rows.getD i default).atr) (s : BTState) (i : Nat)
    (hs : BracketInv s) : BracketInv (stepAt rows rr s i) := by
  unfold BracketInv
  rw [stepAt_eq]
  cases hip : s.in_position with
  | false =>
      by_cases hc : (isPerfect (rows.getD i default)
          && ! isPerfect (rows.getD (i - 1) default)) = true
      · rw [step_entry hip hc]
        intro _
        constructor
        · simpa using sub_le_self (rows.getD i default).close
            (by simpa using hatr i)
        · exact le_add_of_nonneg_right (mul_nonneg (hatr i) hrr)
      · rw [step_skip hip hc]
        intro hq
        rw [hip] at hq
        exact absurd hq (by simp)
  | true =>
      by_cases htp : s.tp_price ≤ (rows.getD i default).high
      · rw [step_tp hip htp]
        intro hq
        simp at hq
      · by_cases hsl : (rows.getD i default).low ≤ s.sl_price
        · rw [step_sl hip htp hsl]
          intro hq
          simp at hq
        · rw [step_hold hip htp hsl]
          exact hs

theorem closeSign_step {rows : List Row} {rr : ℚ} (hrr : 0 ≤ rr)
    (hatr : ∀ i, 0 ≤ (rows.getD i default).atr) (t : BTEvents) (i : Nat)
    (h : BracketInv t.state
      ∧ ∀ dc ∈ t.closes, (dc.2 = true → 0 ≤ dc.1) ∧ (dc.2 = false → dc.1 ≤ 0)) :
    BracketInv (stepEv rows rr t i).state
      ∧ ∀ dc ∈ (stepEv rows rr t i).closes,
          (dc.2 = true → 0 ≤ dc.1) ∧ (dc.2 = false → dc.1 ≤ 0) := by
  obtain ⟨hbr, hcl⟩ := h
  refine ⟨by rw [stepEv_state]; exact bracket_step hrr hatr _ _ hbr, ?_⟩
  rw [stepEv_closes]
  cases hip : t.state.in_position with
  | false =>
      rw [if_neg (by simp [hip])]
      exact hcl
  | true =>
      obtain ⟨h1, h2⟩ := hbr hip
      rw [if_pos rfl]
      by_cases htp : t.state.tp_price ≤ (rows.getD i default).high
      · rw [if_pos htp]
        intro dc hdc
        rcases List.mem_append.1 hdc with hd | hd
        · exact hcl dc hd
        · rw [List.mem_singleton] at hd
          subst hd
          exact ⟨fun _ => sub_nonneg.2 h2, by simp⟩
      · rw [if_neg htp]
        by_cases hsl : (rows.getD i default).low ≤ t.state.sl_price
        · rw [if_pos hsl]
          intro dc hdc
          rcases List.mem_append.1 hdc with hd | hd
          · exact hcl dc hd
          · rw [List.mem_singleton] at hd
            subst hd
            exact ⟨by simp, fun _ => sub_nonpos.2 h1⟩
        · rw [if_neg hsl]
          exact hcl

/-! ## The strength aggregation preserves the total score -/

theorem sum_strengthUpd (f : Currency → ℚ) (o : Obs) :
    ∑ c, strengthUpd f o c = ∑ c, f c := by
  unfold strengthUpd
  split
  · rfl
  · rename_i hne
    have hfun : ∀ x : Currency,
        (if x = o.1 then f x + o.2.2 else if x = o.2.1 then f x - o.2.2 else f x)
          = f x + ((if x = o.1 then o.2.2 else 0) - (if x = o.2.1 then o.2.2 else 0)) := by
      intro x
      by_cases h1 : x = o.1
      · have h2 : ¬ x = o.2.1 := fun h2 => hne (h1 ▸ h2)
        simp [h1, if_neg (fun h2 : o.1 = o.2.1 => hne h2)]
      · by_cases h2 : x = o.2.1
        · have h3 : ¬ o.2.1 = o.1 := fun h3 => hne h3.symm
          simp [h1, h2, h3]
          ring
        · simp [h1, h2]
    rw [Finset.sum_congr rfl fun x _ => hfun x]
    rw [Finset.sum_add_distrib, Finset.sum_sub_distrib]
    simp [Finset.sum_ite_eq']

theorem sum_strength_foldl :
    ∀ (obs : List Obs) (f : Currency → ℚ),
      ∑ c, obs.foldl strengthUpd f c = ∑ c, f c := by
  intro obs
  induction obs with
  | nil => intro f; rfl
  | cons o obs ih =>
      intro f
      rw [List.foldl_cons, ih, sum_strengthUpd]

/-! ## Claim theorems -/

/-- C1: from the `Flat` state the loop body transitions to `InPosition`
exactly when perfect order (`MA_S > MA_M > MA_L`) holds on the current
bar and did not hold on the previous bar; on that entry it records
`entry_price` as the current close, `take_profit = entry + ATR * rr`
and `stop_loss = entry - ATR * 1`. -/
theorem entry_edge_triggered (rr : ℚ) (s : BTState) (prev curr : Row)
    (h : s.in_position = false) :
    ((step rr s prev curr).in_position = true ↔
      ((curr.ma_m < curr.ma_s ∧ curr.ma_l < curr.ma_m)
        ∧ ¬ (prev.ma_m < prev.ma_s ∧ prev.ma_l < prev.ma_m)))
  ∧ (((curr.ma_m < curr.ma_s ∧ curr.ma_l < curr.ma_m)
        ∧ ¬ (prev.ma_m < prev.ma_s ∧ prev.ma_l < prev.ma_m)) →
      (step rr s prev curr).entry_price = curr.close
    ∧ (step rr s prev curr).tp_price = curr.close + curr.atr * rr
    ∧ (step rr s prev curr).sl_price = curr.close - curr.atr * 1) := by
  have h1 : ∀ r : Row, isPerfect r = true ↔ (r.ma_m < r.ma_s ∧ r.ma_l < r.ma_m) := by
    intro r
    simp [isPerfect]
  have h2 : ∀ r : Row, isPerfect r = false ↔ ¬ (r.ma_m < r.ma_s ∧ r.ma_l < r.ma_m) := by
    intro r
    rw [← h1 r]
    simp
  have hbool : (isPerfect curr && ! isPerfect prev) = true ↔
      ((curr.ma_m < curr.ma_s ∧ curr.ma_l < curr.ma_m)
        ∧ ¬ (prev.ma_m < prev.ma_s ∧ prev.ma_l < prev.ma_m)) := by
    rw [Bool.and_eq_true, Bool.not_eq_true', h1 curr, h2 prev]
  by_cases hc : (isPerfect curr && ! isPerfect prev) = true
  · rw [step_entry h hc]
    exact ⟨iff_of_true rfl (hbool.1 hc), fun _ => ⟨rfl, rfl, rfl⟩⟩
  · rw [step_skip h hc]
    exact ⟨iff_of_false (by simp [h]) (fun hp => hc (hbool.2 hp)),
      fun hp => absurd (hbool.2 hp) hc⟩

/-- C1 witness: a concrete edge-triggered entry records close 5,
`TP = 5 + 1 * 2`, `SL = 5 - 1 * 1`. -/
theorem entry_edge_triggered_wit :
    (step 2 initState rowFlat rowPerf).entry_price = rowPerf.close
  ∧ (step 2 initState rowFlat rowPerf).tp_price = rowPerf.close + rowPerf.atr * 2
  ∧ (step 2 initState rowFlat rowPerf).sl_price = rowPerf.close - rowPerf.atr * 1 :=
  (entry_edge_triggered 2 initState rowFlat rowPerf rfl).2
    (by with_unfolding_all decide)

/-- C2: with a position open, the loop body closes at take-profit with
realized delta `tp - entry` whenever `high ≥ tp` (regardless of the
low, so a bar touching both levels resolves as TP-first); otherwise it
closes at stop-loss with delta `sl - entry` whenever `low ≤ sl`;
otherwise the state is unchanged. -/
theorem exit_priority_tp_first (rr : ℚ) (s : BTState) (prev curr : Row)
    (h : s.in_position = true) :
    (s.tp_price ≤ curr.high →
        (step rr s prev curr).in_position = false
      ∧ (step rr s prev curr).balance = s.balance + (s.tp_price - s.entry_price)
      ∧ (step rr s prev curr).history
          = s.history ++ [s.balance + (s.tp_price - s.entry_price)])
  ∧ (¬ s.tp_price ≤ curr.high → curr.low ≤ s.sl_price →
        (step rr s prev curr).in_position = false
      ∧ (step rr s prev curr).balance = s.balance + (s.sl_price - s.entry_price)
      ∧ (step rr s prev curr).history
          = s.history ++ [s.balance + (s.sl_price - s.entry_price)])
  ∧ (¬ s.tp_price ≤ curr.high → ¬ curr.low ≤ s.sl_price →
        step rr s prev curr = s) := by
  refine ⟨fun htp => ?_, fun htp hsl => ?_, fun htp hsl => step_hold h htp hsl⟩
  · rw [step_tp h htp]
    exact ⟨rfl, rfl, rfl⟩
  · rw [step_sl h htp hsl]
    exact ⟨rfl, rfl, rfl⟩

/-- C2 witness: a concrete bar whose high and low reach both levels
closes at the take-profit. -/
theorem exit_priority_tp_first_wit :
    (step 2 sOpen rowFlat rowHit).in_position = false
  ∧ (step 2 sOpen rowFlat rowHit).balance
      = sOpen.balance + (sOpen.tp_price - sOpen.entry_price)
  ∧ (step 2 sOpen rowFlat rowHit).history
      = sOpen.history ++ [sOpen.balance + (sOpen.tp_price - sOpen.entry_price)] :=
  (exit_priority_tp_first 2 sOpen rowFlat rowHit rfl).1
    (by with_unfolding_all decide)

/-- C3: the simulation starts `Flat`, and while a position is open the
loop body never rewrites it: the entry, take-profit and stop-loss of
the open position are preserved by every iteration, so no second
position is created before the current one closes. -/
theorem single_open_position (rr : ℚ) (s : BTState) (prev curr : Row)
    (h : s.in_position = true) :
    initState.in_position = false
  ∧ (step rr s prev curr).entry_price = s.entry_price
  ∧ (step rr s prev curr).tp_price = s.tp_price
  ∧ (step rr s prev curr).sl_price = s.sl_price := by
  refine ⟨rfl, ?_⟩
  by_cases htp : s.tp_price ≤ curr.high
  · rw [step_tp h htp]
    exact ⟨rfl, rfl, rfl⟩
  · by_cases hsl : curr.low ≤ s.sl_price
    · rw [step_sl h htp hsl]
      exact ⟨rfl, rfl, rfl⟩
    · rw [step_hold h htp hsl]
      exact ⟨rfl, rfl, rfl⟩

/-- C3 witness: with a concrete open position, one iteration leaves the
position fields untouched. -/
theorem single_open_position_wit :
    initState.in_position = false
  ∧ (step 2 sOpen rowFlat rowHit).entry_price = sOpen.entry_price
  ∧ (step 2 sOpen rowFlat rowHit).tp_price = sOpen.tp_price
  ∧ (step 2 sOpen rowFlat rowHit).sl_price = sOpen.sl_price :=
  single_open_position 2 sOpen rowFlat rowHit rfl

/-- C4: every currency starts at score 0, and since each observed
return is added to its base currency and subtracted from its quote
currency, the total of all scores is 0, so the positive entries sum to
the negation of the negative entries' sum. -/
theorem strength_scores_sum_zero (obs : List Obs) :
    (∀ c, get_currency_strength [] c = 0)
  ∧ ∑ c, get_currency_strength obs c = 0
  ∧ ∑ c ∈ Finset.univ.filter (fun c => 0 < get_currency_strength obs c),
        get_currency_strength obs c
      = - ∑ c ∈ Finset.univ.filter (fun c => get_currency_strength obs c < 0),
          get_currency_strength obs c := by
  have hz : ∑ c, get_currency_strength obs c = 0 := by
    unfold get_currency_strength
    rw [sum_strength_foldl]
    simp
  refine ⟨fun c => rfl, hz, ?_⟩
  have h1 := Finset.sum_filter_add_sum_filter_not Finset.univ
    (fun c => 0 < get_currency_strength obs c) (get_currency_strength obs)
  have h2 := Finset.sum_filter_add_sum_filter_not
    (Finset.univ.filter fun c => ¬ 0 < get_currency_strength obs c)
    (fun c => get_currency_strength obs c < 0) (get_currency_strength obs)
  rw [Finset.filter_filter, Finset.filter_filter] at h2
  have hneg : Finset.univ.filter
      (fun c => ¬ 0 < get_currency_strength obs c ∧ get_currency_strength obs c < 0)
      = Finset.univ.filter (fun c => get_currency_strength obs c < 0) := by
    apply Finset.filter_congr
    intro c _
    constructor
    · exact fun hc => hc.2
    · exact fun hc => ⟨not_lt.2 (le_of_lt hc), hc⟩
  have hzero : ∑ c ∈ Finset.univ.filter
      (fun c => ¬ 0 < get_currency_strength obs c ∧ ¬ get_currency_strength obs c < 0),
      get_currency_strength obs c = 0 := by
    apply Finset.sum_eq_zero
    intro c hc
    rw [Finset.mem_filter] at hc
    have ha := not_lt.1 hc.2.1
    have hb := not_lt.1 hc.2.2
    linarith
  rw [hneg, hzero] at h2
  rw [hz] at h1
  linarith

/-- C5: for two distinct currencies the canonical symbol is the same in
either argument order, the inversion flags are opposite, and the flag
is `false` exactly when the first argument has the smaller priority
index. -/
theorem pair_symbol_canonical (a b : Currency) (h : a ≠ b) :
    (get_proper_symbol a b).1 = (get_proper_symbol b a).1
  ∧ (get_proper_symbol a b).2 = ! (get_proper_symbol b a).2
  ∧ ((get_proper_symbol a b).2 = false ↔ priorityIdx a < priorityIdx b) := by
  revert a b
  with_unfolding_all decide

/-- C5 witness: the strongest/weakest pair EUR and USD canonicalizes to
the same symbol in both orders with opposite flags. -/
theorem pair_symbol_canonical_wit :
    (get_proper_symbol Currency.EUR Currency.USD).1
        = (get_proper_symbol Currency.USD Currency.EUR).1
  ∧ (get_proper_symbol Currency.EUR Currency.USD).2
        = ! (get_proper_symbol Currency.USD Currency.EUR).2
  ∧ ((get_proper_symbol Currency.EUR Currency.USD).2 = false
        ↔ priorityIdx Currency.EUR < priorityIdx Currency.USD) :=
  pair_symbol_canonical Currency.EUR Currency.USD (by decide)

/-- C6: the returned ledger is exactly the cumulative-balance sequence
of the closed trades' realized deltas, one value per closed trade in
order; a position still open when the bars run out contributes nothing
(the close log alone determines the output), and the ledger is empty
precisely when no trade closed. -/
theorem ledger_is_cumulative_closes (bars : List Bar) (rr : ℚ) :
    run_advanced_backtest bars rr
      = cumulativeBalance ((btEvents (augment bars) rr).closes.map Prod.fst)
  ∧ (run_advanced_backtest bars rr).length
      = (btEvents (augment bars) rr).closes.length := by
  have hInv : LedgerInv (btEvents (augment bars) rr) := by
    unfold btEvents
    exact foldl_invariant _ _ (fun t i ht => ledgerInv_step _ _ t i ht) _ _ ⟨rfl, rfl⟩
  have hrun : run_advanced_backtest bars rr
      = (btEvents (augment bars) rr).state.history := by
    unfold run_advanced_backtest
    rw [btEvents_state]
  constructor
  · rw [hrun, hInv.2]
    rfl
  · rw [hrun, hInv.2, cumFrom_length, List.length_map]

/-- C7: an input shorter than the 50-bar `MA_L` window leaves nothing
after `dropna()`, so the backtest reports the empty ledger (the
insufficient-data outcome) instead of a numeric answer. -/
theorem insufficient_data_empty (bars : List Bar) (rr : ℚ)
    (h : bars.length < 50) :
    run_advanced_backtest bars rr = [] := by
  unfold run_advanced_backtest
  rw [augment_eq_nil h]
  rfl

/-- C7 witness: the empty bar series yields the empty ledger. -/
theorem insufficient_data_empty_wit :
    ([] : List Bar).length < 50 ∧ run_advanced_backtest [] 2 = [] :=
  ⟨by decide, insufficient_data_empty [] 2 (by decide)⟩

/-- C8 counterexample: on a 14-bar series the ATR at bar index 13 (the
14th bar) is already defined (`some 1`), because the true range at bar
0 degenerates to `high - low` instead of being missing; the claim's
"undefined on the first 14 bars" fails. -/
theorem atr_defined_on_fourteenth_bar :
    exBars.length = 14 ∧ atrOpt exBars 13 = some 1 := by
  with_unfolding_all decide

/-- C8 (amended): each indicator column has one entry per input bar;
a window-`N` moving average is missing exactly on the first `N-1`
bars; the ATR is missing exactly on the first 13 bars (not 14, since
the true range of bar 0 is `high - low`); and the true range of bar
`i > 0` is `max(high-low, |high-prev close|, |low-prev close|)`. -/
theorem indicator_columns_shape (bars : List Bar) :
    (maList bars 10).length = bars.length
  ∧ (maList bars 25).length = bars.length
  ∧ (maList bars 50).length = bars.length
  ∧ (atrList bars).length = bars.length
  ∧ (∀ N i, i < bars.length → (maOpt bars N i = none ↔ i + 1 < N))
  ∧ (∀ i, i < bars.length → (atrOpt bars i = none ↔ i + 1 < 14))
  ∧ (∀ i, 0 < i →
        trVal bars i
          = max ((bars.getD i default).high - (bars.getD i default).low)
              (max |(bars.getD i default).high - (bars.getD (i - 1) default).close|
                   |(bars.getD i default).low - (bars.getD (i - 1) default).close|))
  ∧ trVal bars 0 = (bars.getD 0 default).high - (bars.getD 0 default).low := by
  refine ⟨by simp [maList], by simp [maList], by simp [maList],
    by simp [atrList], ?_, ?_, ?_, by simp [trVal]⟩
  · intro N i hi
    unfold maOpt
    split <;> simp <;> omega
  · intro i hi
    unfold atrOpt
    split <;> simp <;> omega
  · intro i hi
    have hne : ¬ i = 0 := by omega
    simp [trVal, hne]

/-- C9: when every bar has `high ≥ low` and the risk-reward ratio is
nonnegative, every open position in the simulation trace has
`stop_loss ≤ entry_price ≤ take_profit`, and consequently every
take-profit close realizes a nonnegative delta and every stop-loss
close a nonpositive one. -/
theorem bracket_ordered_nonneg_atr (bars : List Bar) (rr : ℚ)
    (hrr : 0 ≤ rr) (hb : ∀ b ∈ bars, b.low ≤ b.high) :
    (∀ s ∈ btStates (augment bars) rr,
        s.in_position = true →
          s.sl_price ≤ s.entry_price ∧ s.entry_price ≤ s.tp_price)
  ∧ (∀ dc ∈ (btEvents (augment bars) rr).closes,
        (dc.2 = true → 0 ≤ dc.1) ∧ (dc.2 = false → dc.1 ≤ 0)) := by
  have hatr := augment_getD_atr_nonneg bars hb
  constructor
  · intro s hs
    exact scanl_invariant _ BracketInv
      (fun b a hb' => bracket_step hrr hatr b a hb') _ _
      (fun hq => absurd hq (by simp [initState])) s hs
  · have h := foldl_invariant (stepEv (augment bars) rr)
      (fun t => BracketInv t.state
        ∧ ∀ dc ∈ t.closes, (dc.2 = true → 0 ≤ dc.1) ∧ (dc.2 = false → dc.1 ≤ 0))
      (fun t i ht => closeSign_step hrr hatr t i ht)
      (List.range' 1 ((augment bars).length - 1)) ⟨initState, [], []⟩
      ⟨fun hq => absurd hq (by simp [initState]), by simp⟩
    exact h.2

/-- C9 witness: on the concrete 51-bar series the opened position's
bracket straddles its entry. -/
theorem bracket_ordered_nonneg_atr_wit :
    ((btStates (augment wbars) 2).getD 1 initState).in_position = true
  ∧ ((btStates (augment wbars) 2).getD 1 initState).sl_price
      ≤ ((btStates (augment wbars) 2).getD 1 initState).entry_price
  ∧ ((btStates (augment wbars) 2).getD 1 initState).entry_price
      ≤ ((btStates (augment wbars) 2).getD 1 initState).tp_price := by
  have h := (bracket_ordered_nonneg_atr wbars 2 (by norm_num)
      (by with_unfolding_all decide)).1
  have hm : (btStates (augment wbars) 2).getD 1 initState
      ∈ btStates (augment wbars) 2 := by
    with_unfolding_all decide
  have hp : ((btStates (augment wbars) 2).getD 1 initState).in_position = true := by
    with_unfolding_all decide
  exact ⟨hp, (h _ hm hp).1, (h _ hm hp).2⟩

/-- C10: every position is opened at a loop index of at least 1 (the
first indicator-complete bar only ever serves as the previous bar of
the edge trigger), and when at most one row survives `dropna()` the
loop body never runs, so the ledger is empty. -/
theorem no_trade_on_single_bar (bars : List Bar) (rr : ℚ) :
    (∀ i ∈ (btEvents (augment bars) rr).opens, 1 ≤ i)
  ∧ ((augment bars).length ≤ 1 → run_advanced_backtest bars rr = []) := by
  constructor
  · intro i hi
    unfold btEvents at hi
    rcases mem_opens_foldl _ _ _ _ _ hi with h | h
    · exact absurd h (List.not_mem_nil i)
    · exact (List.mem_range'_1.1 h).1
  · intro hl
    unfold run_advanced_backtest btRun
    have h0 : (augment bars).length - 1 = 0 := by omega
    rw [h0, List.range'_zero]
    rfl

end FXCheck
